import Mathlib

/-!
Verification of the dataset download-and-store script of this repository
(create_datasets.py).  The script fetches several tabular sources, applies a
light per-source transform and writes each result under a fixed hierarchical
key of one HDF store.  The shallow embedding below models:

* the keyed store and its put/get operations (pd.HDFStore);
* index deduplication keeping first occurrences (df[~df.index.duplicated()]);
* sorting of the (date, ticker)-indexed price history (sort_index);
* the market-cap string normalization of the exchange-listing metadata
  (suffix filter, str[1:-1] strip, pd.to_numeric, suffix multipliers);
* the column assignment merging the normalized values back;
* the storing of the us_equities_meta_data.csv frame;
* the fred/assets pipeline dropna(how="all").resample("B").mean().

Strings are embedded as lists of characters and numeric values as exact
rationals.  Dates are ordinal day numbers with day 0 a Monday, so that
business-day logic is arithmetic modulo 7.
-/

set_option maxRecDepth 4000

namespace CreateDatasets

/-! ### The keyed HDF store -/

/-- A keyed store: an association list from hierarchical string keys to
payloads of type π, modelling pd.HDFStore.  The put operation keeps keys
unique. -/
abbrev Store (π : Type) := List (String × π)

/-- HDFStore.put: writing a key that already exists overwrites that entry in
place; a new key is appended at the end. -/
def put {π : Type} : Store π → String → π → Store π
  | [], k, v => [(k, v)]
  | (k', v') :: rest, k, v =>
      if k' = k then (k, v) :: rest else (k', v') :: put rest k v

/-- Reading the payload stored under a key. -/
def get {π : Type} (s : Store π) (k : String) : Option π :=
  s.lookup k

theorem put_put {π : Type} (s : Store π) (k : String) (v₁ v₂ : π) :
    put (put s k v₁) k v₂ = put s k v₂ := by
  induction s with
  | nil => simp [put]
  | cons hd tl ih =>
    obtain ⟨k', v'⟩ := hd
    by_cases h : k' = k
    · subst h
      simp [put]
    · simp [put, h, ih]

theorem get_put {π : Type} (s : Store π) (k : String) (v : π) :
    get (put s k v) k = some v := by
  induction s with
  | nil => simp [put, get, List.lookup]
  | cons hd tl ih =>
    obtain ⟨k', v'⟩ := hd
    by_cases h : k' = k
    · subst h
      simp [put, get, List.lookup]
    · have hne : (k == k') = false := by
        rw [beq_eq_false_iff_ne]
        exact Ne.symm h
      simp only [put, if_neg h, get, List.lookup, hne]
      exact ih

/-- C8.  Writing twice under the same key leaves the store exactly as a
single write of the second payload would: the second put fully replaces the
first, the key then reads back the second payload alone, and writing the same
payload twice is idempotent (the third conjunct is the special case
v₁ = v₂). -/
theorem store_put_overwrites {π : Type} (s : Store π) (k : String) (v₁ v₂ : π) :
    put (put s k v₁) k v₂ = put s k v₂
    ∧ get (put s k v₂) k = some v₂
    ∧ put (put s k v₂) k v₂ = put s k v₂ :=
  ⟨put_put s k v₁ v₂, get_put s k v₂, put_put s k v₂ v₂⟩

/-! ### Index deduplication (exchange-listing metadata, line 179) -/

/-- Strings of the embedded frames: lists of characters. -/
abbrev Str := List Char

/-- The filtering pass behind pandas df[~df.index.duplicated()]: a row is
kept exactly when its index key has not occurred at an earlier position; the
accumulator collects the keys already seen. -/
def dedupFirstAux {ρ : Type} (seen : List Str) : List (Str × ρ) → List (Str × ρ)
  | [] => []
  | (k, r) :: rest =>
      if k ∈ seen then dedupFirstAux seen rest
      else (k, r) :: dedupFirstAux (k :: seen) rest

/-- Pandas df[~df.index.duplicated()] with the default keep="first": only the
first row of each index key survives. -/
def dedupFirst {ρ : Type} (t : List (Str × ρ)) : List (Str × ρ) :=
  dedupFirstAux [] t

theorem dedupFirstAux_sublist {ρ : Type} (t : List (Str × ρ)) :
    ∀ seen : List Str, List.Sublist (dedupFirstAux seen t) t := by
  induction t with
  | nil => intro seen; simp [dedupFirstAux]
  | cons hd tl ih =>
    intro seen
    obtain ⟨k, r⟩ := hd
    by_cases h : k ∈ seen
    · simp only [dedupFirstAux, if_pos h]
      exact (ih seen).cons _
    · simp only [dedupFirstAux, if_neg h]
      exact (ih (k :: seen)).cons₂ _

theorem dedupFirstAux_mem_key {ρ : Type} (t : List (Str × ρ)) :
    ∀ (seen : List Str) (k : Str),
      k ∈ (dedupFirstAux seen t).map Prod.fst →
        k ∉ seen ∧ k ∈ t.map Prod.fst := by
  induction t with
  | nil => intro seen k hk; simp [dedupFirstAux] at hk
  | cons hd tl ih =>
    intro seen k hk
    obtain ⟨k', r⟩ := hd
    by_cases h : k' ∈ seen
    · simp only [dedupFirstAux, if_pos h] at hk
      obtain ⟨h1, h2⟩ := ih seen k hk
      exact ⟨h1, by rw [List.map_cons]; exact List.mem_cons_of_mem _ h2⟩
    · simp only [dedupFirstAux, if_neg h, List.map_cons, List.mem_cons] at hk
      rcases hk with h1 | h1
      · subst h1
        exact ⟨h, by rw [List.map_cons]; exact List.mem_cons_self _ _⟩
      · obtain ⟨h1, h2⟩ := ih (k' :: seen) k h1
        exact ⟨fun hs => h1 (List.mem_cons_of_mem _ hs),
          by rw [List.map_cons]; exact List.mem_cons_of_mem _ h2⟩

theorem dedupFirstAux_mem_key_of_mem {ρ : Type} (t : List (Str × ρ)) :
    ∀ (seen : List Str) (k : Str),
      k ∈ t.map Prod.fst → k ∉ seen → k ∈ (dedupFirstAux seen t).map Prod.fst := by
  induction t with
  | nil => intro seen k hk; simp at hk
  | cons hd tl ih =>
    intro seen k hk hs
    obtain ⟨k', r⟩ := hd
    by_cases h : k' ∈ seen
    · have hne : k ≠ k' := fun he => hs (he ▸ h)
      have hmem : k ∈ tl.map Prod.fst := by
        rw [List.map_cons] at hk
        rcases List.mem_cons.mp hk with h1 | h1
        · exact absurd h1 hne
        · exact h1
      simp only [dedupFirstAux, if_pos h]
      exact ih seen k hmem hs
    · by_cases he : k = k'
      · subst he
        simp only [dedupFirstAux, if_neg h, List.map_cons]
        exact List.mem_cons_self _ _
      · have hmem : k ∈ tl.map Prod.fst := by
          rw [List.map_cons] at hk
          rcases List.mem_cons.mp hk with h1 | h1
          · exact absurd h1 he
          · exact h1
        have hs' : k ∉ k' :: seen := by
          intro hmem'
          rcases List.mem_cons.mp hmem' with h1 | h1
          · exact he h1
          · exact hs h1
        simp only [dedupFirstAux, if_neg h, List.map_cons, List.mem_cons]
        exact Or.inr (ih (k' :: seen) k hmem hs')

theorem dedupFirstAux_nodup {ρ : Type} (t : List (Str × ρ)) :
    ∀ seen : List Str, ((dedupFirstAux seen t).map Prod.fst).Nodup := by
  induction t with
  | nil => intro seen; simp [dedupFirstAux]
  | cons hd tl ih =>
    intro seen
    obtain ⟨k', r⟩ := hd
    by_cases h : k' ∈ seen
    · simp only [dedupFirstAux, if_pos h]
      exact ih seen
    · have hk : k' ∉ (dedupFirstAux (k' :: seen) tl).map Prod.fst := by
        intro hmem
        exact (dedupFirstAux_mem_key tl (k' :: seen) k' hmem).1 (by simp)
      simp only [dedupFirstAux, if_neg h, List.map_cons, List.nodup_cons]
      exact ⟨hk, ih (k' :: seen)⟩

theorem dedupFirstAux_lookup {ρ : Type} (t : List (Str × ρ)) :
    ∀ (seen : List Str) (k : Str),
      k ∉ seen → (dedupFirstAux seen t).lookup k = t.lookup k := by
  induction t with
  | nil => intro seen k _; simp [dedupFirstAux]
  | cons hd tl ih =>
    intro seen k hs
    obtain ⟨k', r⟩ := hd
    by_cases h : k' ∈ seen
    · have hne : (k == k') = false := by
        rw [beq_eq_false_iff_ne]
        exact fun he => hs (he ▸ h)
      simp only [dedupFirstAux, if_pos h, List.lookup, hne]
      exact ih seen k hs
    · by_cases he : k = k'
      · subst he
        simp [dedupFirstAux, if_neg h, List.lookup]
      · have hne : (k == k') = false := by
          rw [beq_eq_false_iff_ne]
          exact he
        have hs' : k ∉ k' :: seen := by
          intro hmem'
          rcases List.mem_cons.mp hmem' with h1 | h1
          · exact he h1
          · exact hs h1
        simp only [dedupFirstAux, if_neg h, List.lookup, hne]
        exact ih (k' :: seen) k hs'

/-- C6.  Deduplication of a keyed table keeps exactly one row per identifier
(the surviving keys are duplicate-free and are exactly the keys of the
input), and the kept row is the first occurrence of its identifier in input
order (lookup, which returns the first matching row, is unchanged). -/
theorem dedup_keeps_first {ρ : Type} (t : List (Str × ρ)) :
    ((dedupFirst t).map Prod.fst).Nodup
    ∧ (∀ k, k ∈ (dedupFirst t).map Prod.fst ↔ k ∈ t.map Prod.fst)
    ∧ (∀ k, (dedupFirst t).lookup k = t.lookup k) := by
  refine ⟨dedupFirstAux_nodup t [], fun k => ?_, fun k => dedupFirstAux_lookup t [] k (by simp)⟩
  constructor
  · intro h
    exact (dedupFirstAux_mem_key t [] k h).2
  · intro h
    exact dedupFirstAux_mem_key_of_mem t [] k h (by simp)

/-- C10.  Deduplication filters rows without reordering them: the output is a
sublist of the input, so for any two surviving rows the one that appeared
first in the input also appears first in the output. -/
theorem dedup_preserves_order {ρ : Type} (t : List (Str × ρ)) :
    List.Sublist (dedupFirst t) t :=
  dedupFirstAux_sublist t []

/-! ### Sorted price history (quandl/wiki/prices, lines 58-66) -/

/-- A (date, ticker) compound index key of the wiki price history: the date
as an ordinal day number and the ticker as a character list. -/
abbrev PKey := Nat × Str

/-- Lexicographic comparison of tickers, the order pandas uses on a string
index level. -/
def tickLe : Str → Str → Bool
  | [], _ => true
  | _ :: _, [] => false
  | a :: as, b :: bs => if a = b then tickLe as bs else decide (a < b)

/-- Lexicographic order on the (date, ticker) compound key: by date first,
then by ticker. -/
def keyLe (x y : PKey) : Bool :=
  if x.1 = y.1 then tickLe x.2 y.2 else decide (x.1 < y.1)

/-- DataFrame.sort_index on the (date, ticker)-indexed price frame. -/
def sortIndex {ρ : Type} (t : List (PKey × ρ)) : List (PKey × ρ) :=
  t.mergeSort (fun a b => keyLe a.1 b.1)

/-- The store key of the price history. -/
def wikiPricesKey : String := "quandl/wiki/prices"

theorem tickLe_total (a b : Str) : tickLe a b = true ∨ tickLe b a = true := by
  induction a generalizing b with
  | nil => exact Or.inl rfl
  | cons x as ih =>
    cases b with
    | nil => exact Or.inr rfl
    | cons y bs =>
      by_cases hxy : x = y
      · subst hxy
        rcases ih bs with h | h
        · exact Or.inl (by simp [tickLe, h])
        · exact Or.inr (by simp [tickLe, h])
      · rcases lt_or_gt_of_ne hxy with h | h
        · exact Or.inl (by simp [tickLe, hxy, h])
        · exact Or.inr (by simp [tickLe, Ne.symm hxy, h])

theorem tickLe_trans (a b c : Str) (hab : tickLe a b = true)
    (hbc : tickLe b c = true) : tickLe a c = true := by
  induction a generalizing b c with
  | nil => rfl
  | cons x as ih =>
    cases b with
    | nil => simp [tickLe] at hab
    | cons y bs =>
      cases c with
      | nil => simp [tickLe] at hbc
      | cons z cs =>
        by_cases hxy : x = y
        · subst hxy
          by_cases hyz : x = z
          · subst hyz
            simp only [tickLe, if_pos rfl] at hab hbc ⊢
            exact ih bs cs hab hbc
          · simp only [tickLe, if_pos rfl] at hab
            simp only [tickLe, if_neg hyz] at hbc ⊢
            exact hbc
        · by_cases hyz : y = z
          · subst hyz
            simp only [tickLe, if_neg hxy] at hab ⊢
            exact hab
          · simp only [tickLe, if_neg hxy, decide_eq_true_eq] at hab
            simp only [tickLe, if_neg hyz, decide_eq_true_eq] at hbc
            have hxz : x < z := lt_trans hab hbc
            simp only [tickLe, if_neg (ne_of_lt hxz), decide_eq_true_eq]
            exact hxz

theorem keyLe_total (x y : PKey) : keyLe x y = true ∨ keyLe y x = true := by
  by_cases h : x.1 = y.1
  · rcases tickLe_total x.2 y.2 with ht | ht
    · exact Or.inl (by simp [keyLe, h, ht])
    · exact Or.inr (by simp [keyLe, h.symm, ht])
  · rcases lt_or_gt_of_ne h with hlt | hlt
    · exact Or.inl (by simp [keyLe, h, hlt])
    · exact Or.inr (by simp [keyLe, Ne.symm h, hlt])

theorem keyLe_trans (x y z : PKey) (hxy : keyLe x y = true)
    (hyz : keyLe y z = true) : keyLe x z = true := by
  by_cases h1 : x.1 = y.1
  · by_cases h2 : y.1 = z.1
    · simp only [keyLe, if_pos h1] at hxy
      simp only [keyLe, if_pos h2] at hyz
      simp only [keyLe, if_pos (h1.trans h2)]
      exact tickLe_trans _ _ _ hxy hyz
    · simp only [keyLe, if_neg h2, decide_eq_true_eq] at hyz
      simp only [keyLe, if_neg (h1 ▸ h2), decide_eq_true_eq]
      exact h1 ▸ hyz
  · by_cases h2 : y.1 = z.1
    · simp only [keyLe, if_neg h1, decide_eq_true_eq] at hxy
      simp only [keyLe, if_neg (h2 ▸ h1), decide_eq_true_eq]
      exact h2 ▸ hxy
    · simp only [keyLe, if_neg h1, decide_eq_true_eq] at hxy
      simp only [keyLe, if_neg h2, decide_eq_true_eq] at hyz
      have hxz : x.1 < z.1 := lt_trans hxy hyz
      simp only [keyLe, if_neg (Nat.ne_of_lt hxz), decide_eq_true_eq]
      exact hxz

/-- C7.  The price history is sorted by its (date, ticker) compound key
before storage (sort_index), and re-reading the stored key returns exactly
that sorted frame, so the sequence of index keys read back is non-decreasing
in the lexicographic key order. -/
theorem wiki_prices_sorted {ρ : Type} (s : Store (List (PKey × ρ)))
    (raw : List (PKey × ρ)) :
    get (put s wikiPricesKey (sortIndex raw)) wikiPricesKey = some (sortIndex raw)
    ∧ ((sortIndex raw).map Prod.fst).Pairwise (fun a b => keyLe a b = true) := by
  constructor
  · exact get_put s wikiPricesKey (sortIndex raw)
  · have h := List.sorted_mergeSort
      (fun a b c hab hbc => keyLe_trans a.1 b.1 c.1 hab hbc)
      (fun a b => by
        rcases keyLe_total a.1 b.1 with h | h
        · simp [h]
        · simp [h])
      raw
    rw [List.pairwise_map]
    exact h

/-! ### Market-cap normalization (lines 196-210) -/

/-- Pandas mcap.marketcap.str[-1]: the final character of a string, absent
for the empty string. -/
def lastChar (s : Str) : Option Char := s.getLast?

/-- Pandas mcap.marketcap.str[1:-1]: drop the first and the last character
(the currency symbol and the magnitude suffix). -/
def stripEnds (s : Str) : Str := (s.drop 1).dropLast

/-- Numeric value of a digit character. -/
def digitVal (c : Char) : Nat := c.toNat - 48

/-- Value of a block of digit characters read left to right; zero for the
empty block (the integer or fractional side of a decimal may be empty, as in
".5" or "1."). -/
def natVal (s : Str) : Nat := s.foldl (fun a c => 10 * a + digitVal c) 0

/-- Split a string at its first decimal point: the characters before it and,
when a point occurs, the characters after it. -/
def splitDot : Str → Str × Option Str
  | [] => ([], none)
  | c :: cs =>
      if c = '.' then ([], some cs)
      else ((splitDot cs).1.cons c, (splitDot cs).2)

/-- Pandas pd.to_numeric restricted to plain decimal literals: an optional
sign, then digits with at most one decimal point and at least one digit.
Returns the exact rational value; none when the text is not such a literal
(to_numeric then raises). -/
def parseDecimal (s : Str) : Option ℚ :=
  let sgn : ℚ := if s.head? = some '-' then -1 else 1
  let t : Str := if s.head? = some '-' || s.head? = some '+' then s.drop 1 else s
  match splitDot t with
  | (ip, none) =>
      if ip ≠ [] ∧ ip.all Char.isDigit then some (sgn * natVal ip) else none
  | (ip, some fp) =>
      if ip ++ fp ≠ [] ∧ (ip ++ fp).all Char.isDigit ∧ '.' ∉ fp then
        some (sgn * ((natVal ip : ℚ) + (natVal fp : ℚ) / (10 : ℚ) ^ fp.length))
      else none

/-- The rows of the marketcap column that are present, with their symbol:
df[["marketcap"]].dropna() (line 196). -/
def mcapPresent (rows : List (Str × Option Str)) : List (Str × Str) :=
  rows.filterMap (fun r => r.2.map (fun s => (r.1, s)))

/-- Line 206, mcap[mcap.suffix.str.endswith(("B", "M"))]: keep only the rows
whose final character is the B or M magnitude suffix. -/
def mcapFiltered (rows : List (Str × Option Str)) : List (Str × Str) :=
  (mcapPresent rows).filter
    (fun r => lastChar r.2 = some 'B' || lastChar r.2 = some 'M')

/-- Columnwise fallible conversion: the whole column converts only when
every entry converts (pd.to_numeric with its default errors="raise" turns one
bad entry into an exception for the whole column, modelled as none). -/
def mapOpt {α β : Type} (f : α → Option β) : List α → Option (List β)
  | [] => some []
  | a :: l => (f a).bind (fun b => (mapOpt f l).map (fun bs => b :: bs))

/-- Line 207, mcap.marketcap = pd.to_numeric(mcap.marketcap.str[1:-1]): the
stripped string of every surviving row is parsed; a single unparseable entry
makes the whole conversion raise, modelled as none.  Each parsed row keeps
its suffix character for the multiplier step. -/
def mcapParsed (rows : List (Str × Option Str)) : Option (List (Str × Char × ℚ)) :=
  mapOpt (fun r =>
    (parseDecimal (stripEnds r.2)).map (fun q => (r.1, (lastChar r.2).getD ' ', q)))
    (mcapFiltered rows)

/-- The multiplier dict mcaps = M to 1e6, B to 1e9 (line 208), in its
iteration order. -/
def mcaps : List (Char × ℚ) := [('M', 1000000), ('B', 1000000000)]

/-- One pass of the loop body of lines 209-210,
mcap.loc[mcap.suffix == symbol, "marketcap"] *= factor. -/
def applyFactor (symbol : Char) (factor : ℚ) (t : List (Str × Char × ℚ)) :
    List (Str × Char × ℚ) :=
  t.map (fun r => if r.2.1 = symbol then (r.1, r.2.1, r.2.2 * factor) else r)

/-- The whole multiplier loop of lines 209-210 over the mcaps dict. -/
def applyFactors (t : List (Str × Char × ℚ)) : List (Str × Char × ℚ) :=
  mcaps.foldl (fun acc e => applyFactor e.1 e.2 acc) t

/-- The complete market-cap normalization of lines 196-210, from the raw
optional marketcap strings to the numeric marketcap column keyed by symbol;
none models the run aborting inside pd.to_numeric. -/
def normalizeMcap (rows : List (Str × Option Str)) : Option (List (Str × ℚ)) :=
  (mcapParsed rows).map (fun t => (applyFactors t).map (fun r => (r.1, r.2.2)))

theorem mapOpt_mem_of_mem {α β : Type} (f : α → Option β) (l : List α) :
    ∀ (out : List β) (x : α) (y : β),
      mapOpt f l = some out → x ∈ l → f x = some y → y ∈ out := by
  induction l with
  | nil => intro out x y _ hx _; cases hx
  | cons a l ih =>
    intro out x y hout hx hy
    simp only [mapOpt] at hout
    cases ha : f a with
    | none => rw [ha] at hout; simp at hout
    | some b =>
      rw [ha] at hout
      cases hl : mapOpt f l with
      | none => rw [hl] at hout; simp at hout
      | some bs =>
        rw [hl] at hout
        simp only [Option.some_bind, Option.map_some', Option.some_inj] at hout
        subst hout
        rcases List.mem_cons.mp hx with h1 | h1
        · subst h1
          rw [ha] at hy
          injection hy with hy
          subst hy
          exact List.mem_cons_self _ _
        · exact List.mem_cons_of_mem _ (ih bs x y hl h1 hy)

theorem mapOpt_mem {α β : Type} (f : α → Option β) (l : List α) :
    ∀ (out : List β) (y : β),
      mapOpt f l = some out → y ∈ out → ∃ x ∈ l, f x = some y := by
  induction l with
  | nil =>
    intro out y hout hy
    simp only [mapOpt, Option.some_inj] at hout
    subst hout
    cases hy
  | cons a l ih =>
    intro out y hout hy
    simp only [mapOpt] at hout
    cases ha : f a with
    | none => rw [ha] at hout; simp at hout
    | some b =>
      rw [ha] at hout
      cases hl : mapOpt f l with
      | none => rw [hl] at hout; simp at hout
      | some bs =>
        rw [hl] at hout
        simp only [Option.some_bind, Option.map_some', Option.some_inj] at hout
        subst hout
        rcases List.mem_cons.mp hy with h1 | h1
        · subst h1
          exact ⟨a, List.mem_cons_self _ _, ha⟩
        · obtain ⟨x, hx, hfx⟩ := ih bs y hl h1
          exact ⟨x, List.mem_cons_of_mem _ hx, hfx⟩

theorem mapOpt_eq_none_of_mem {α β : Type} (f : α → Option β) (l : List α)
    (x : α) (hx : x ∈ l) (hfx : f x = none) : mapOpt f l = none := by
  induction l with
  | nil => cases hx
  | cons a l ih =>
    rcases List.mem_cons.mp hx with h1 | h1
    · subst h1
      simp [mapOpt, hfx]
    · cases ha : f a <;> simp [mapOpt, ha, ih h1]

theorem mem_mcapFiltered (rows : List (Str × Option Str)) (id s : Str)
    (hmem : (id, some s) ∈ rows)
    (hsuf : lastChar s = some 'B' ∨ lastChar s = some 'M') :
    (id, s) ∈ mcapFiltered rows := by
  have h1 : (id, s) ∈ mcapPresent rows := by
    simp only [mcapPresent, List.mem_filterMap]
    exact ⟨(id, some s), hmem, rfl⟩
  simp only [mcapFiltered, List.mem_filter]
  refine ⟨h1, ?_⟩
  rcases hsuf with h | h <;> simp [h]

theorem mem_mcapFiltered_elim (rows : List (Str × Option Str)) (id s : Str)
    (hp : (id, s) ∈ mcapFiltered rows) :
    (id, some s) ∈ rows ∧ (lastChar s = some 'B' ∨ lastChar s = some 'M') := by
  simp only [mcapFiltered, List.mem_filter] at hp
  obtain ⟨h1, h2⟩ := hp
  constructor
  · simp only [mcapPresent, List.mem_filterMap] at h1
    obtain ⟨r, hr, hfr⟩ := h1
    obtain ⟨a, b⟩ := r
    cases b with
    | none => simp at hfr
    | some w =>
      have hfr' : (a, w) = (id, s) := by simpa using hfr
      have ha : a = id := congrArg Prod.fst hfr'
      have hw : w = s := congrArg Prod.snd hfr'
      subst ha
      subst hw
      exact hr
  · simpa using h2

theorem stripEnds_wrap (n : Str) (c : Char) :
    stripEnds ('$' :: (n ++ [c])) = n := by
  simp [stripEnds]

theorem lastChar_wrap (n : Str) (c : Char) :
    lastChar ('$' :: (n ++ [c])) = some c := by
  have h : '$' :: (n ++ [c]) = ('$' :: n) ++ [c] := rfl
  rw [lastChar, h, List.getLast?_concat]

theorem applyFactors_eq (t : List (Str × Char × ℚ)) :
    applyFactors t = applyFactor 'B' 1000000000 (applyFactor 'M' 1000000 t) := rfl

theorem mem_applyFactors_B (t : List (Str × Char × ℚ)) (id : Str) (q : ℚ)
    (h : (id, 'B', q) ∈ t) : (id, 'B', q * 1000000000) ∈ applyFactors t := by
  rw [applyFactors_eq]
  have h1 : (id, 'B', q) ∈ applyFactor 'M' 1000000 t := by
    have := List.mem_map_of_mem
      (fun r : Str × Char × ℚ =>
        if r.2.1 = 'M' then (r.1, r.2.1, r.2.2 * 1000000) else r) h
    simpa [applyFactor] using this
  have := List.mem_map_of_mem
    (fun r : Str × Char × ℚ =>
      if r.2.1 = 'B' then (r.1, r.2.1, r.2.2 * 1000000000) else r) h1
  simpa [applyFactor] using this

theorem mem_applyFactors_M (t : List (Str × Char × ℚ)) (id : Str) (q : ℚ)
    (h : (id, 'M', q) ∈ t) : (id, 'M', q * 1000000) ∈ applyFactors t := by
  rw [applyFactors_eq]
  have h1 : (id, 'M', q * 1000000) ∈ applyFactor 'M' 1000000 t := by
    have := List.mem_map_of_mem
      (fun r : Str × Char × ℚ =>
        if r.2.1 = 'M' then (r.1, r.2.1, r.2.2 * 1000000) else r) h
    simpa [applyFactor] using this
  have := List.mem_map_of_mem
    (fun r : Str × Char × ℚ =>
      if r.2.1 = 'B' then (r.1, r.2.1, r.2.2 * 1000000000) else r) h1
  simpa [applyFactor] using this

theorem mem_applyFactors_fst (t : List (Str × Char × ℚ)) (y : Str × Char × ℚ)
    (hy : y ∈ applyFactors t) : ∃ x ∈ t, y.1 = x.1 := by
  rw [applyFactors_eq] at hy
  simp only [applyFactor, List.mem_map] at hy
  obtain ⟨x1, ⟨x0, hx0, hfx0⟩, hfx1⟩ := hy
  refine ⟨x0, hx0, ?_⟩
  have e1 : y.1 = x1.1 := by
    subst hfx1
    split <;> rfl
  have e0 : x1.1 = x0.1 := by
    subst hfx0
    split <;> rfl
  exact e1.trans e0

/-- C1.  For a market-cap string of the shape currency symbol, decimal
number, then suffix B or M, the normalization (when the whole column
converts) contains the parsed number multiplied by 10^9 for B and 10^6 for M
under that row's symbol. -/
theorem mcap_BM_normalization (rows : List (Str × Option Str)) (id n : Str)
    (c : Char) (q : ℚ) (out : List (Str × ℚ))
    (hmem : (id, some ('$' :: (n ++ [c]))) ∈ rows)
    (hc : c = 'B' ∨ c = 'M')
    (hq : parseDecimal n = some q)
    (hout : normalizeMcap rows = some out) :
    (id, q * (if c = 'B' then 1000000000 else 1000000)) ∈ out := by
  have hfil : (id, '$' :: (n ++ [c])) ∈ mcapFiltered rows :=
    mem_mcapFiltered rows id _ hmem
      (by rcases hc with h | h <;> rw [lastChar_wrap, h] <;> simp [h])
  cases hp : mcapParsed rows with
  | none => rw [normalizeMcap, hp] at hout; simp at hout
  | some t =>
    rw [normalizeMcap, hp] at hout
    simp only [Option.map_some', Option.some_inj] at hout
    have hft : (id, c, q) ∈ t := by
      refine mapOpt_mem_of_mem _ (mcapFiltered rows) t (id, '$' :: (n ++ [c]))
        (id, c, q) hp hfil ?_
      simp only [stripEnds_wrap, lastChar_wrap, hq, Option.map_some',
        Option.getD_some]
    subst hout
    rcases hc with h | h
    · subst h
      simp only [if_pos rfl]
      have := List.mem_map_of_mem (fun r : Str × Char × ℚ => (r.1, r.2.2))
        (mem_applyFactors_B t id q hft)
      simpa using this
    · subst h
      rw [if_neg (by decide)]
      have := List.mem_map_of_mem (fun r : Str × Char × ℚ => (r.1, r.2.2))
        (mem_applyFactors_M t id q hft)
      simpa using this

/-- Witness for C1 at the row with symbol T and market cap "$1.5B": 1.5
parses to 3/2 and the normalized mapping holds 3/2 * 10^9 = 1500000000. -/
theorem mcap_BM_normalization_witness :
    ((['T'] : Str), (3 / 2 : ℚ) * (if ('B' : Char) = 'B' then 1000000000 else 1000000))
      ∈ [((['T'] : Str), (1500000000 : ℚ))] := by
  refine mcap_BM_normalization [(['T'], some ['$', '1', '.', '5', 'B'])] ['T']
    ['1', '.', '5'] 'B' (3 / 2) [(['T'], 1500000000)] ?_ (Or.inl rfl) ?_ ?_
  · exact List.mem_cons_self _ _
  · simp [parseDecimal, splitDot, natVal, digitVal]
    norm_num
  · simp [normalizeMcap, mcapParsed, mcapFiltered, mcapPresent, lastChar,
      stripEnds, parseDecimal, splitDot, natVal, digitVal, applyFactors,
      applyFactor, mcaps, mapOpt]
    norm_num

/-- C3.  A row whose market-cap string does not end in B or M contributes no
entry to the normalized mapping: its identifier is excluded, not mapped to
zero or coerced. -/
theorem mcap_bad_suffix_excluded (rows : List (Str × Option Str))
    (out : List (Str × ℚ)) (id : Str)
    (hout : normalizeMcap rows = some out)
    (hbad : ∀ s, (id, some s) ∈ rows →
      ∃ c, lastChar s = some c ∧ c ≠ 'B' ∧ c ≠ 'M') :
    id ∉ out.map Prod.fst := by
  intro hmem
  cases hp : mcapParsed rows with
  | none => rw [normalizeMcap, hp] at hout; simp at hout
  | some t =>
    rw [normalizeMcap, hp] at hout
    simp only [Option.map_some', Option.some_inj] at hout
    subst hout
    simp only [List.map_map, List.mem_map] at hmem
    obtain ⟨y, hy, hyid⟩ := hmem
    obtain ⟨x, hx, hxy⟩ := mem_applyFactors_fst t y hy
    obtain ⟨r, hr, hfr⟩ := mapOpt_mem _ (mcapFiltered rows) t x hp hx
    obtain ⟨a, w⟩ := r
    have hx1 : x.1 = a := by
      cases hq : parseDecimal (stripEnds w) with
      | none => rw [hq] at hfr; simp at hfr
      | some q =>
        rw [hq] at hfr
        simp only [Option.map_some', Option.some_inj] at hfr
        rw [← hfr]
    obtain ⟨hrow, hsuf⟩ := mem_mcapFiltered_elim rows a w hr
    have haid : a = id := by
      have : y.1 = a := hxy.trans hx1
      rw [← hyid]
      exact this.symm
    subst haid
    obtain ⟨c, hc, hcB, hcM⟩ := hbad w hrow
    rcases hsuf with h | h
    · rw [hc] at h
      exact hcB (Option.some_inj.mp h)
    · rw [hc] at h
      exact hcM (Option.some_inj.mp h)

/-- Witness for C3 at the single row with symbol X and market cap "$50K":
the K suffix is not honored, the normalized mapping is empty and X is not
among its identifiers. -/
theorem mcap_bad_suffix_excluded_witness :
    (['X'] : Str) ∉ (([] : List (Str × ℚ)).map Prod.fst) := by
  refine mcap_bad_suffix_excluded [(['X'], some ['$', '5', '0', 'K'])] [] ['X'] ?_ ?_
  · simp [normalizeMcap, mcapParsed, mcapFiltered, mcapPresent, lastChar,
      stripEnds, parseDecimal, splitDot, natVal, digitVal, applyFactors,
      applyFactor, mcaps, mapOpt]
  · intro s hs
    have hs' : s = ['$', '5', '0', 'K'] := by simpa using hs
    subst hs'
    exact ⟨'K', by simp [lastChar], by decide, by decide⟩

/-- C4 (amended).  When a row survives the B/M suffix filter but its stripped
string is not a parseable decimal, the whole normalization aborts
(pd.to_numeric with the default errors="raise" raises on the whole column):
the result is none, not a mapping missing just that row. -/
theorem mcap_unparseable_aborts (rows : List (Str × Option Str)) (id s : Str)
    (hmem : (id, some s) ∈ rows)
    (hsuf : lastChar s = some 'B' ∨ lastChar s = some 'M')
    (hbad : parseDecimal (stripEnds s) = none) :
    normalizeMcap rows = none := by
  have hfil : (id, s) ∈ mcapFiltered rows := mem_mcapFiltered rows id s hmem hsuf
  have hp : mcapParsed rows = none := by
    refine mapOpt_eq_none_of_mem _ (mcapFiltered rows) (id, s) hfil ?_
    simp [hbad]
  rw [normalizeMcap, hp]
  rfl

/-- Witness for C4 (amended) at a two-row input: the row with symbol Z and
market cap "$xB" survives the suffix filter but does not parse, so the whole
normalization returns none. -/
theorem mcap_unparseable_aborts_witness :
    normalizeMcap [(['T'], some ['$', '1', '.', '5', 'B']),
      (['Z'], some ['$', 'x', 'B'])] = none := by
  refine mcap_unparseable_aborts _ ['Z'] ['$', 'x', 'B'] ?_ ?_ ?_
  · exact List.mem_cons_of_mem _ (List.mem_cons_self _ _)
  · exact Or.inl (by simp [lastChar])
  · simp [parseDecimal, splitDot, stripEnds]

/-- Counterexample to C4 as stated.  The claim says an unparseable B/M row is
propagated as absent while the rest of the column survives.  On the concrete
input with rows T -> "$1.5B" (parseable) and Z -> "$xB" (unparseable), the
code instead aborts the whole normalization (none), although the T row alone
would have normalized to 1500000000: no normalized column exists at all, so
the failure is not confined to the bad row. -/
theorem mcap_unparseable_aborts_cex :
    normalizeMcap [(['T'], some ['$', '1', '.', '5', 'B']),
      (['Z'], some ['$', 'x', 'B'])] = none
    ∧ normalizeMcap [(['T'], some ['$', '1', '.', '5', 'B'])]
      = some [(['T'], 1500000000)] := by
  constructor
  · simp [normalizeMcap, mcapParsed, mcapFiltered, mcapPresent, lastChar,
      stripEnds, parseDecimal, splitDot, natVal, digitVal, applyFactors,
      applyFactor, mcaps, mapOpt]
  · simp [normalizeMcap, mcapParsed, mcapFiltered, mcapPresent, lastChar,
      stripEnds, parseDecimal, splitDot, natVal, digitVal, applyFactors,
      applyFactor, mcaps, mapOpt]
    norm_num

/-! ### Merging the normalized column back (line 217) -/

/-- Line 217, df["marketcap"] = mcap.marketcap: column assignment aligned on
the index.  Each row of df keeps its key and its other columns (abstracted as
a value of type α); its marketcap cell becomes the normalized numeric value
when its key occurs in the normalized mapping, and absent (NaN) otherwise.
The raw string marketcap column is replaced wholesale. -/
def assignMarketcap {α : Type} (df : List (Str × α × Option Str))
    (m : List (Str × ℚ)) : List (Str × α × Option ℚ) :=
  df.map (fun r => (r.1, r.2.1, m.lookup r.1))

/-- C9.  The merge of the normalized market-cap column back into the
metadata table touches only the marketcap column: the keys, the row order
and every other column are unchanged, and each row's new marketcap is the
lookup of its key in the normalized mapping (its numeric value when the key
matches, absent when it does not). -/
theorem mcap_merge_frame {α : Type} (df : List (Str × α × Option Str))
    (m : List (Str × ℚ)) (k : Str) (a : α) (s : Option Str)
    (hk : (k, a, s) ∈ df) :
    (assignMarketcap df m).map (fun r => (r.1, r.2.1))
        = df.map (fun r => (r.1, r.2.1))
    ∧ (k, a, m.lookup k) ∈ assignMarketcap df m := by
  constructor
  · simp [assignMarketcap, List.map_map, Function.comp]
  · exact List.mem_map_of_mem
      (fun r : Str × α × Option Str => (r.1, r.2.1, m.lookup r.1)) hk

/-- Witness for C9 at a one-row table with key A whose mapping holds the
value 2e9: the frame of other columns is untouched and the row receives the
looked-up value. -/
theorem mcap_merge_frame_witness :
    (assignMarketcap [((['A'] : Str), (0 : Nat), some ['$', '2', 'B'])]
        [((['A'] : Str), (2000000000 : ℚ))]).map (fun r => (r.1, r.2.1))
      = [((['A'] : Str), (0 : Nat), some ['$', '2', 'B'])].map
          (fun r => (r.1, r.2.1))
    ∧ ((['A'] : Str), (0 : Nat),
        ([((['A'] : Str), (2000000000 : ℚ))].lookup (['A'] : Str)))
      ∈ assignMarketcap [((['A'] : Str), (0 : Nat), some ['$', '2', 'B'])]
          [((['A'] : Str), (2000000000 : ℚ))] :=
  mcap_merge_frame _ _ ['A'] 0 (some ['$', '2', 'B']) (List.mem_cons_self _ _)

/-! ### The stored us_equities/stocks table (lines 232-240) -/

/-- A cell of a csv-loaded frame: read_csv yields strings, parsed numbers or
missing values. -/
inductive CellVal : Type
  | str : Str → CellVal
  | num : ℚ → CellVal
  | na : CellVal
deriving DecidableEq

/-- One row of us_equities_meta_data.csv: the ticker column, the marketcap
column and the remaining columns. -/
structure CsvRow : Type where
  ticker : Str
  marketcap : CellVal
  rest : List CellVal
deriving DecidableEq

/-- Pandas df.set_index("ticker") on the csv frame: the ticker column
becomes the index. -/
def setIndexTicker (csv : List CsvRow) : List (Str × CellVal × List CellVal) :=
  csv.map (fun r => (r.ticker, r.marketcap, r.rest))

/-- The store key of the equities metadata table. -/
def usEquitiesKey : String := "us_equities/stocks"

/-- Lines 232-240: the frame variable is rebound to the contents of
us_equities_meta_data.csv, and that frame indexed by ticker is the payload
stored under us_equities/stocks.  The exchange-listing frame with the
normalized marketcap column built at lines 177-218 was bound to the same
variable and is never referenced after line 232; the unused binding below
mirrors that dead store. -/
def usEquitiesPayload {α : Type} (exchangeRows : List (Str × α × Option Str))
    (csv : List CsvRow) : List (Str × CellVal × List CellVal) :=
  let _df := (normalizeMcap (exchangeRows.map (fun r => (r.1, r.2.2)))).map
      (fun m => assignMarketcap exchangeRows m)
  setIndexTicker csv

/-- C2 (amended).  The table persisted under us_equities/stocks is the
frame of us_equities_meta_data.csv indexed by ticker, whatever that file
holds; it does not depend on the exchange-listing frame or on the
normalization performed earlier in the script. -/
theorem us_equities_stored_from_csv {α : Type}
    (ex ex' : List (Str × α × Option Str)) (csv : List CsvRow)
    (s : Store (List (Str × CellVal × List CellVal))) :
    get (put s usEquitiesKey (usEquitiesPayload ex csv)) usEquitiesKey
        = some (setIndexTicker csv)
    ∧ usEquitiesPayload ex csv = usEquitiesPayload ex' csv :=
  ⟨get_put s usEquitiesKey _, rfl⟩

/-- Counterexample to C2 as stated.  In a run where the exchange listing
holds T -> "$1.5B", the normalizer produces 1500000000 for T; but when the
csv file holds the raw string "1.5B" as T's marketcap, the payload stored
under us_equities/stocks carries that raw string, not the normalizer's
numeric value: the stored table is not the table with the normalized
marketcap column. -/
theorem us_equities_stored_cex :
    normalizeMcap [((['T'] : Str), some ['$', '1', '.', '5', 'B'])]
      = some [((['T'] : Str), (1500000000 : ℚ))]
    ∧ usEquitiesPayload [((['T'] : Str), (), some ['$', '1', '.', '5', 'B'])]
        [⟨['T'], CellVal.str ['1', '.', '5', 'B'], []⟩]
      = [((['T'] : Str), CellVal.str ['1', '.', '5', 'B'], ([] : List CellVal))]
    ∧ CellVal.str ['1', '.', '5', 'B'] ≠ CellVal.num 1500000000 := by
  refine ⟨?_, rfl, ?_⟩
  · simp [normalizeMcap, mcapParsed, mcapFiltered, mcapPresent, lastChar,
      stripEnds, parseDecimal, splitDot, natVal, digitVal, applyFactors,
      applyFactor, mcaps, mapOpt]
    norm_num
  · intro h
    cases h

/-! ### The fred/assets pipeline (lines 344-348) -/

/-- A dated frame of several named series: each row is a date (an ordinal
day number, day 0 a Monday) with one optional value per series column. -/
abbrev Frame := List (Nat × List (Option ℚ))

/-- Pandas dropna(how="all"): drop the rows in which every series is
missing. -/
def dropnaAll (t : Frame) : Frame :=
  t.filter (fun r => r.2.any Option.isSome)

/-- Day d is a business day: day 0 is a Monday, days 5 and 6 a weekend. -/
def isBday (d : Nat) : Bool := d % 7 ≤ 4

/-- The business-day bin of day d under resample("B"): a weekday is its own
bin, a Saturday or Sunday falls into the bin of the preceding Friday. -/
def bbin (d : Nat) : Nat := if d % 7 ≤ 4 then d else d - (d % 7 - 4)

/-- Number of series columns of a frame. -/
def ncols (t : Frame) : Nat :=
  match t with
  | [] => 0
  | r :: _ => r.2.length

/-- The present values of column j among the rows rs. -/
def colVals (rs : Frame) (j : Nat) : List ℚ :=
  rs.filterMap (fun r => (r.2.get? j).bind id)

/-- Pandas mean() with its default skipna: the mean of the present values,
missing when no value is present. -/
def meanOpt (l : List ℚ) : Option ℚ :=
  match l with
  | [] => none
  | _ => some (l.sum / l.length)

/-- The row of the resampled frame at business day b: the columnwise mean of
the rows of t binned to b. -/
def binRow (t : Frame) (b : Nat) : List (Option ℚ) :=
  (List.range (ncols t)).map
    (fun j => meanOpt (colVals (t.filter (fun r => bbin r.1 = b)) j))

/-- Pandas resample("B").mean(): one output row for every business day from
the bin of the earliest date to the bin of the latest date. -/
def resampleB (t : Frame) : Frame :=
  match (t.map Prod.fst).min?, (t.map Prod.fst).max? with
  | some lo, some hi =>
      ((List.range' (bbin lo) (bbin hi + 1 - bbin lo)).filter isBday).map
        (fun b => (b, binRow t b))
  | _, _ => []

/-- Lines 344-345: the fred/assets pipeline on the fetched frame (renaming
the columns to the human-readable security names does not affect values):
dropna(how="all").resample("B").mean(). -/
def fredAssets (t : Frame) : Frame := resampleB (dropnaAll t)

/-- A concrete fetched frame of two series with values on overlapping but
non-identical dates: both series have a value on Monday day 0, only the
first has a value on Thursday day 3. -/
def fredGapInput : Frame := [(0, [some 1, some 5]), (3, [some 2, none])]

theorem bbin_mono {a b : Nat} (h : a ≤ b) : bbin a ≤ bbin b := by
  unfold bbin
  split <;> split <;> omega

/-- Counterexample to C5 as stated.  The claim says the resampled table
contains no row for a day on which every series is missing.  On the concrete
input fredGapInput, day 1 (a Tuesday) lies strictly inside the resampled
span but carries no data at all, and the output nevertheless contains the
row (1, [none, none]) with both series missing. -/
theorem fred_assets_gap_row_cex :
    isBday 1 = true
    ∧ ((1 : Nat), ([none, none] : List (Option ℚ))) ∈ fredAssets fredGapInput := by
  constructor
  · rfl
  · decide

/-- C5 (amended).  The fred/assets pipeline drops the rows in which every
series is missing and then resamples to business-day frequency by averaging:
the output has exactly one row for every business day between the first and
last business-day bins of the remaining data (its keys are strictly
increasing, so one row per day), and each row is the columnwise mean of the
values binned to that day, which averages same-bin duplicates.  In-span
business days on which every series is missing still receive a row of
missing values. -/
theorem fred_assets_resample (t : Frame) (lo hi : Nat)
    (hlo : ((dropnaAll t).map Prod.fst).min? = some lo)
    (hhi : ((dropnaAll t).map Prod.fst).max? = some hi) :
    (∀ d, d ∈ (fredAssets t).map Prod.fst ↔
        (isBday d = true ∧ bbin lo ≤ d ∧ d ≤ bbin hi))
    ∧ ((fredAssets t).map Prod.fst).Pairwise (· < ·)
    ∧ (∀ p ∈ fredAssets t, p.2 = binRow (dropnaAll t) p.1) := by
  have hmax := (List.max?_eq_some_iff (fun a => le_refl a)
    (fun a b => max_choice a b) (fun a b c => Nat.max_le)).mp hhi
  have hlo_mem : lo ∈ (dropnaAll t).map Prod.fst :=
    List.min?_mem (fun a b => min_choice a b) hlo
  have hlh : lo ≤ hi := hmax.2 lo hlo_mem
  have hbb : bbin lo ≤ bbin hi := bbin_mono hlh
  have hkeys : (fredAssets t).map Prod.fst
      = (List.range' (bbin lo) (bbin hi + 1 - bbin lo)).filter isBday := by
    simp only [fredAssets, resampleB, hlo, hhi, List.map_map]
    exact List.map_id _
  refine ⟨?_, ?_, ?_⟩
  · intro d
    rw [hkeys, List.mem_filter, List.mem_range'_1]
    constructor
    · rintro ⟨⟨h1, h2⟩, h3⟩
      exact ⟨h3, h1, by omega⟩
    · rintro ⟨h1, h2, h3⟩
      exact ⟨⟨h2, by omega⟩, h1⟩
  · rw [hkeys]
    exact (List.pairwise_lt_range' _ _).filter _
  · intro p hp
    simp only [fredAssets, resampleB, hlo, hhi, List.mem_map] at hp
    obtain ⟨b, _, hb⟩ := hp
    rw [← hb]

/-- Witness for C5 (amended) at the concrete frame fredGapInput, whose
dates run from day 0 to day 3: the resampled keys are exactly the business
days of that span, strictly increasing, and every row is the bin mean. -/
theorem fred_assets_resample_witness :
    (∀ d, d ∈ (fredAssets fredGapInput).map Prod.fst ↔
        (isBday d = true ∧ bbin 0 ≤ d ∧ d ≤ bbin 3))
    ∧ ((fredAssets fredGapInput).map Prod.fst).Pairwise (· < ·)
    ∧ (∀ p ∈ fredAssets fredGapInput, p.2 = binRow (dropnaAll fredGapInput) p.1) :=
  fred_assets_resample fredGapInput 0 3 (by decide) (by decide)

end CreateDatasets
